import Mathlib

/-!
Shallow embedding of the AutoLinker plugin core (src/main.ts): the
normalizer, the fuzzy matcher, the index with its mutation operations,
the suggestion matcher, the phrase enumerator, the sentence scanner,
cursor-to-word resolution, link resolution, and the debounced re-index
scheduler.  JavaScript strings are modelled as `List Char`; the JS `Map`
that backs the index is modelled as an association list in insertion
order, which is exactly the iteration order of a JS `Map`.
-/

/-- The four entry kinds of the source type
`IndexEntryType = 'title' | 'heading' | 'block' | 'tag'`. -/
inductive IndexEntryType where
  | title
  | heading
  | block
  | tag
deriving DecidableEq

/-- The source record `IndexEntry { type, notePath, noteTitle, target,
displayText, score? }`.  `notePath` is the document identifier
(the sourceId of the spec), `noteTitle` its human-readable title
(the sourceTitle of the spec).  `score` is optional, as in the source. -/
structure IndexEntry where
  type : IndexEntryType
  notePath : List Char
  noteTitle : List Char
  target : List Char
  displayText : List Char
  score : Option ℚ
deriving DecidableEq

/-- A word token of the scanner, source shape
`{ word, start: match.index, end: match.index + match[0].length }`.
The source field `end` is a Lean keyword, so it is called `endPos` here. -/
structure Token where
  word : List Char
  start : Nat
  endPos : Nat
deriving DecidableEq

/-- The Unicode primitives the source delegates to the JS runtime:
`nfd` models per-character canonical decomposition
(`String.prototype.normalize('NFD')`), `lower` models per-character
lowercasing (`String.prototype.toLowerCase()`, which may expand a
character), and `isLetterOrNumber` models the character class
`\p{L}\p{N}` of the final regex.  The rest of the pipeline is concrete. -/
structure UnicodeModel where
  nfd : Char → List Char
  lower : Char → List Char
  isLetterOrNumber : Char → Bool

/-- The concrete character range of the regex `[̀-ͯ]` in `normalizeText`:
the combining diacritical marks U+0300 to U+036F. -/
def isCombiningMark (c : Char) : Bool :=
  decide (0x300 ≤ c.toNat ∧ c.toNat ≤ 0x36F)

/-- Source `normalizeText(text)`:
`text.normalize('NFD').replace(/[̀-ͯ]/g, '').toLowerCase()`
`.replace(/[^\p{L}\p{N}]/gu, '')` — decompose, strip the combining
marks U+0300..U+036F, lowercase, keep only letters and numbers. -/
def normalizeText (U : UnicodeModel) (text : List Char) : List Char :=
  (((text.flatMap U.nfd).filter (fun c => !isCombiningMark c)).flatMap
      U.lower).filter U.isLetterOrNumber

/-- The scanning loop of `fuzzyMatch`: for each query character, find its
first occurrence in the text at or after the running index and continue
just past it.  The greedy first-occurrence scan succeeds exactly when the
query is an ordered subsequence of the text, which is this recursion. -/
def subseqScan : List Char → List Char → Bool
  | [], _ => true
  | _ :: _, [] => false
  | c :: q, d :: t => if d = c then subseqScan q t else subseqScan (c :: q) t

/-- Source `fuzzyMatch(query, text)`: lowercase both sides, then run the
first-occurrence scan of the query characters over the text. -/
def fuzzyMatch (U : UnicodeModel) (query text : List Char) : Bool :=
  subseqScan (query.flatMap U.lower) (text.flatMap U.lower)

/-- The index `Map<string, IndexEntry[]>`, as an association list in
insertion order (JS `Map` iteration order). -/
abbrev Index : Type := List (List Char × List IndexEntry)

/-- Source `this.index.get(key) || []`: the bucket of a key, or the empty
list when the key is absent. -/
def lookupBucket (idx : Index) (k : List Char) : List IndexEntry :=
  match List.find? (fun kb => decide (kb.1 = k)) idx with
  | some kb => kb.2
  | none => []

/-- Source `this.index.set(key, value)`: replace the value of an existing
key in place, or append a new binding (JS `Map` set semantics). -/
def setBucket : Index → List Char → List IndexEntry → Index
  | [], k, v => [(k, v)]
  | kb :: rest, k, v =>
      if kb.1 = k then (k, v) :: rest else kb :: setBucket rest k v

/-- The deduplication predicate used by both `addToIndex` and
`getSuggestions`:
`e.type === entry.type && e.notePath === entry.notePath && e.target === entry.target`. -/
def sameKey (a b : IndexEntry) : Bool :=
  decide (a.type = b.type ∧ a.notePath = b.notePath ∧ a.target = b.target)

/-- The uniqueness triple `(kind, sourceId, target)` of an entry. -/
def tripleOf (e : IndexEntry) : IndexEntryType × List Char × List Char :=
  (e.type, e.notePath, e.target)

/-- Source `addToIndex(key, entry)`: normalize the key, fetch the bucket
(or `[]`), push the entry unless some bucket member already has the same
`(type, notePath, target)` triple, and write the bucket back. -/
def addToIndex (U : UnicodeModel) (idx : Index) (key : List Char)
    (entry : IndexEntry) : Index :=
  let normalizedKey := normalizeText U key
  let entries := lookupBucket idx normalizedKey
  if entries.any (fun e => sameKey e entry) then
    setBucket idx normalizedKey entries
  else
    setBucket idx normalizedKey (entries ++ [entry])

/-- Source `deleteFromIndex(file)`: for every bucket, drop the entries of
the removed path; keep the filtered bucket when nonempty, otherwise
delete its key. -/
def deleteFromIndex (idx : Index) (path : List Char) : Index :=
  idx.filterMap (fun kb =>
    let filtered := kb.2.filter (fun e => decide (e.notePath ≠ path))
    if filtered = [] then none else some (kb.1, filtered))

/-- The per-entry update of `renameInIndex`: an entry of the old path gets
the new path and the new basename; every other entry is untouched.  The
source updates only `notePath` and `noteTitle`. -/
def renameEntry (oldPath newPath newTitle : List Char) (e : IndexEntry) :
    IndexEntry :=
  if e.notePath = oldPath then
    { e with notePath := newPath, noteTitle := newTitle }
  else e

/-- Source `renameInIndex(file, oldPath)`: map the per-entry update over
every bucket, writing each bucket back under its unchanged key. -/
def renameInIndex (idx : Index) (oldPath newPath newTitle : List Char) :
    Index :=
  idx.map (fun kb => (kb.1, kb.2.map (renameEntry oldPath newPath newTitle)))

/-- Source `key.startsWith(normalizedQuery)` of the exact-match pass. -/
def startsWithKey (key q : List Char) : Bool :=
  q.isPrefixOf key

/-- The entry copy `{ ...e, score: s }` made by both matcher passes. -/
def withScore (s : ℚ) (e : IndexEntry) : IndexEntry :=
  { e with score := some s }

/-- The exact-match pass of `getSuggestions`: every entry under every key
that starts with the normalized query, copied with score 0, in index
iteration order. -/
def prefixPass (idx : Index) (nq : List Char) : List IndexEntry :=
  idx.flatMap (fun kb =>
    if startsWithKey kb.1 nq then kb.2.map (withScore 0) else [])

/-- The fuzzy pass of `getSuggestions`: every entry under every key that
the normalized query fuzzy-matches, copied with score 0.5. -/
def fuzzyPass (U : UnicodeModel) (idx : Index) (nq : List Char) :
    List IndexEntry :=
  idx.flatMap (fun kb =>
    if fuzzyMatch U nq kb.1 then kb.2.map (withScore (1/2)) else [])

/-- The deduplication
`allMatches.filter((match, index, self) => index === self.findIndex(m => sameKey m match))`:
an element is kept exactly when no element at an earlier index of the
full list shares its triple.  `seen` is the list of all earlier elements. -/
def keepFirstByKey : List IndexEntry → List IndexEntry → List IndexEntry
  | _, [] => []
  | seen, m :: rest =>
      if seen.any (fun e => sameKey e m) then keepFirstByKey (seen ++ [m]) rest
      else m :: keepFirstByKey (seen ++ [m]) rest

/-- Source `getSuggestions(query)`: normalize the query (empty means no
results), concatenate the exact pass before the fuzzy pass, deduplicate
keeping first occurrences, and truncate to 100 results. -/
def getSuggestions (U : UnicodeModel) (idx : Index) (query : List Char) :
    List IndexEntry :=
  let normalizedQuery := normalizeText U query
  if normalizedQuery = [] then []
  else
    let exactMatches := prefixPass idx normalizedQuery
    let fuzzyMatches := fuzzyPass U idx normalizedQuery
    let allMatches := exactMatches ++ fuzzyMatches
    let uniqueMatches := keepFirstByKey [] allMatches
    uniqueMatches.take 100

/-- Number of tokens of a candidate span `(startIdx, endIdx)`. -/
def spanLen (p : Nat × Nat) : Nat := p.2 + 1 - p.1

/-- The candidate-phrase double loop shared by `onTrigger` and
`runQuickLink`: `for span = n down to 1`, `for offset = 0 to n - span`,
skip the span unless `startIdx <= cursorWordIdx <= endIdx`, where
`startIdx = offset` and `endIdx = startIdx + span - 1`. -/
def enumeratePhrases (n cursorWordIdx : Nat) : List (Nat × Nat) :=
  ((List.range n).map (fun i => n - i)).flatMap (fun span =>
    (List.range (n - span + 1)).filterMap (fun offset =>
      let startIdx := offset
      let endIdx := startIdx + span - 1
      if cursorWordIdx < startIdx ∨ endIdx < cursorWordIdx then none
      else some (startIdx, endIdx)))

/-- The sentence-terminator class `/[.!?]/` of the scanners. -/
def isSentenceTerminator (c : Char) : Bool :=
  c = '.' || c = '!' || c = '?'

/-- The whitespace class `/\s/` of the trimming loops: space, the ASCII
control whitespace, NBSP, OGHAM space, the U+2000 block, line and
paragraph separators, NNBSP, MMSP, ideographic space, and the BOM. -/
def isJsWhitespace (c : Char) : Bool :=
  c = ' ' || c = '\t' || c = '\n' || c.toNat = 0xB || c.toNat = 0xC ||
  c = '\r' || c.toNat = 0xA0 || c.toNat = 0x1680 ||
  (0x2000 ≤ c.toNat && c.toNat ≤ 0x200A) || c.toNat = 0x2028 ||
  c.toNat = 0x2029 || c.toNat = 0x202F || c.toNat = 0x205F ||
  c.toNat = 0x3000 || c.toNat = 0xFEFF

/-- Character access `line[i]`.  An out-of-bounds JS read yields
`undefined`, which neither `/[.!?]/.test` nor `/\s/.test` accepts, so the
out-of-bounds stand-in is a character outside both classes. -/
def charAt (line : List Char) (i : Nat) : Char :=
  line.getD i 'x'

/-- The backward scan `for (i = cursor - 1; i >= 0; i--)` of the sentence
parsers: the position of the nearest terminator at or below `i`. -/
def findTermBack (line : List Char) : Nat → Option Nat
  | 0 => if isSentenceTerminator (charAt line 0) then some 0 else none
  | i + 1 =>
      if isSentenceTerminator (charAt line (i + 1)) then some (i + 1)
      else findTermBack line i

/-- The resulting `sentenceStart`: one past the nearest terminator
strictly left of the cursor, or the line start when none exists. -/
def sentenceStartRaw (line : List Char) (cursor : Nat) : Nat :=
  if cursor = 0 then 0
  else
    match findTermBack line (cursor - 1) with
    | some i => i + 1
    | none => 0

/-- The forward scan `for (i = cursor; i < line.length; i++)`: the
position of the nearest terminator at or right of the cursor, or the
line length when none exists. -/
def sentenceEndRaw (line : List Char) (cursor : Nat) : Nat :=
  match (line.drop cursor).findIdx? isSentenceTerminator with
  | some j => cursor + j
  | none => line.length

/-- The loop `while (s < e && /\s/.test(line[s])) s++`, with the fuel
`e - s` counting the remaining admissible steps. -/
def trimLeftGo (line : List Char) : Nat → Nat → Nat
  | 0, s => s
  | fuel + 1, s =>
      if isJsWhitespace (charAt line s) then trimLeftGo line fuel (s + 1)
      else s

/-- Trim leading whitespace of the span `[s, e)`. -/
def trimLeft (line : List Char) (s e : Nat) : Nat :=
  trimLeftGo line (e - s) s

/-- The loop `while (e > s && /\s/.test(line[e - 1])) e--`. -/
def trimRightGo (line : List Char) : Nat → Nat → Nat
  | 0, e => e
  | fuel + 1, e =>
      if isJsWhitespace (charAt line (e - 1)) then trimRightGo line fuel (e - 1)
      else e

/-- Trim trailing whitespace of the span `[s, e)`. -/
def trimRight (line : List Char) (s e : Nat) : Nat :=
  trimRightGo line (e - s) e

/-- JS `line.substring(s, e)` for `s ≤ e`. -/
def substringSpan (line : List Char) (s e : Nat) : List Char :=
  (line.take e).drop s

/-- The sentence parse of the suggestion path (`onTrigger`): terminator
scan in both directions, then the leading trim, then the trailing trim.
Returns the sentence text and its offset in the line. -/
def scanSentenceSuggest (line : List Char) (cursor : Nat) :
    List Char × Nat :=
  let s0 := sentenceStartRaw line cursor
  let e0 := sentenceEndRaw line cursor
  let s1 := trimLeft line s0 e0
  let e1 := trimRight line s1 e0
  (substringSpan line s1 e1, s1)

/-- The sentence parse of the immediate-link path (`runQuickLink`):
terminator scan in both directions, then the leading trim only — the
source has no trailing-trim loop on this path. -/
def scanSentenceQuick (line : List Char) (cursor : Nat) :
    List Char × Nat :=
  let s0 := sentenceStartRaw line cursor
  let e0 := sentenceEndRaw line cursor
  let s1 := trimLeft line s0 e0
  (substringSpan line s1 e0, s1)

/-- Cursor-to-word resolution as written in all three scan sites:
`findIndex(w => c >= w.start && c <= w.end)`, and when that fails,
the fallback `findIndex(w => c === w.end)`. -/
def locateCursorWord (tokens : List Token) (c : Nat) : Option Nat :=
  match tokens.findIdx? (fun w => decide (w.start ≤ c ∧ c ≤ w.endPos)) with
  | some i => some i
  | none => tokens.findIdx? (fun w => decide (c = w.endPos))

/-- Modelled from the spec (section 4.4): cursor-to-word resolution by the
inclusive containment search alone, with the fallback removed.  This is
the refinement target the fallback-containing source is compared with. -/
def locateCursorWordPrimary (tokens : List Token) (c : Nat) : Option Nat :=
  tokens.findIdx? (fun w => decide (w.start ≤ c ∧ c ≤ w.endPos))

/-- Link construction of `selectSuggestion`: the four-way switch on the
entry kind. -/
def resolveLinkSelect (item : IndexEntry) (query : List Char) : List Char :=
  match item.type with
  | IndexEntryType.title =>
      "[[".data ++ item.target ++ "|".data ++ query ++ "]]".data
  | IndexEntryType.heading =>
      "[[".data ++ item.noteTitle ++ "#".data ++ item.target ++ "|".data ++
        query ++ "]]".data
  | IndexEntryType.block =>
      "[[".data ++ item.noteTitle ++ "#^".data ++ item.target ++ "|".data ++
        query ++ "]]".data
  | IndexEntryType.tag =>
      "[[".data ++ item.target ++ "|".data ++ query ++ "]]".data

/-- Link construction of `runQuickLink`: the default `[[target|phrase]]`
with overrides for headings and blocks only; tags take the default. -/
def resolveLinkQuick (bestMatch : IndexEntry) (phrase : List Char) :
    List Char :=
  match bestMatch.type with
  | IndexEntryType.heading =>
      "[[".data ++ bestMatch.noteTitle ++ "#".data ++ bestMatch.target ++
        "|".data ++ phrase ++ "]]".data
  | IndexEntryType.block =>
      "[[".data ++ bestMatch.noteTitle ++ "#^".data ++ bestMatch.target ++
        "|".data ++ phrase ++ "]]".data
  | _ =>
      "[[".data ++ bestMatch.target ++ "|".data ++ phrase ++ "]]".data

/-- Events of the debounced re-index scheduler: a change notification for
a document, or the elapse of the pending 300 ms timeout. -/
inductive DebounceEvent where
  | change (doc : List Char)
  | fire
deriving DecidableEq

/-- One step of `debouncedIndexUpdate`: the plugin holds a single
`debounceTimeout` field shared by all documents, so a change event clears
whatever timeout is pending — whichever document scheduled it — and
schedules a re-index of its own document; a fire event runs
`deleteFromIndex` plus `indexFile` for the pending document.  The state
is the document of the pending timeout; the second component lists the
documents re-indexed by the step. -/
def debounceStep :
    Option (List Char) → DebounceEvent → Option (List Char) × List (List Char)
  | _, DebounceEvent.change d => (some d, [])
  | some d, DebounceEvent.fire => (none, [d])
  | none, DebounceEvent.fire => (none, [])

/-- Run the scheduler over an event sequence, collecting every re-index
it performs. -/
def debounceRun (s : Option (List Char)) :
    List DebounceEvent → Option (List Char) × List (List Char)
  | [] => (s, [])
  | e :: es =>
      let step := debounceStep s e
      let rest := debounceRun step.1 es
      (rest.1, step.2 ++ rest.2)

/-- A triple occurs under a prefix-matching key of the index. -/
def prefixMatchedTriple (idx : Index) (nq : List Char) (e : IndexEntry) :
    Prop :=
  ∃ kb ∈ idx, startsWithKey kb.1 nq = true ∧
    ∃ x ∈ kb.2, tripleOf x = tripleOf e

/-- A triple occurs under a fuzzy-matching key of the index. -/
def fuzzyMatchedTriple (U : UnicodeModel) (idx : Index) (nq : List Char)
    (e : IndexEntry) : Prop :=
  ∃ kb ∈ idx, fuzzyMatch U nq kb.1 = true ∧
    ∃ x ∈ kb.2, tripleOf x = tripleOf e

/-- Every bucket of the index is free of duplicate triples. -/
def BucketsDedup (idx : Index) : Prop :=
  ∀ kb ∈ idx, kb.2.Pairwise (fun a b => tripleOf a ≠ tripleOf b)

/-- A small concrete Unicode model used to instantiate theorems: identity
decomposition and lowercasing, and a letter-or-number class that excludes
the combining-mark range. -/
def plainUnicode : UnicodeModel where
  nfd := fun c => [c]
  lower := fun c => [c]
  isLetterOrNumber := fun c => decide (c.toNat < 0x300)

/-! Helper lemmas about the deduplication key. -/

theorem sameKey_iff {a b : IndexEntry} :
    sameKey a b = true ↔ tripleOf a = tripleOf b := by
  simp [sameKey, tripleOf, Prod.ext_iff]

theorem sameKey_false_iff {a b : IndexEntry} :
    sameKey a b = false ↔ tripleOf a ≠ tripleOf b := by
  constructor
  · intro h htrip
    have hsk := sameKey_iff.mpr htrip
    rw [h] at hsk
    exact Bool.false_ne_true hsk
  · intro h
    cases hsk : sameKey a b
    · rfl
    · exact absurd (sameKey_iff.mp hsk) h

/-! Helper lemmas about flatMap and filter used for normalization. -/

theorem flatMap_eq_self {l : List Char} {f : Char → List Char}
    (h : ∀ a ∈ l, f a = [a]) : l.flatMap f = l := by
  induction l with
  | nil => simp
  | cons c t ih =>
      rw [List.flatMap_cons, h c (by simp), ih (fun a ha => h a (by simp [ha]))]
      rfl

/-- Every character surviving the normalization pipeline is a letter or
number, is fixed by decomposition and lowercasing (under the stated
Unicode facts), and is not a combining mark. -/
theorem normalizeText_mem (U : UnicodeModel)
    (h1 : ∀ e c d, c ∈ U.nfd e → isCombiningMark c = false →
      d ∈ U.lower c → U.nfd d = [d])
    (h2 : ∀ c, U.isLetterOrNumber c = true → isCombiningMark c = false)
    (h3 : ∀ c d, d ∈ U.lower c → U.lower d = [d])
    (s : List Char) :
    ∀ d ∈ normalizeText U s,
      U.isLetterOrNumber d = true ∧ U.nfd d = [d] ∧ U.lower d = [d] ∧
        isCombiningMark d = false := by
  intro d hd
  unfold normalizeText at hd
  simp only [List.mem_filter, List.mem_flatMap, Bool.not_eq_eq_eq_not,
    Bool.not_true] at hd
  obtain ⟨⟨c, ⟨⟨e, _he, hce⟩, hcomb⟩, hdc⟩, halnum⟩ := hd
  exact ⟨halnum, h1 e c d hce hcomb hdc, h3 c d hdc, h2 d halnum⟩

/-- C7: normalization is idempotent, total, and maps the empty string to
the empty string.  The three hypotheses state the Unicode facts the
pipeline relies on: a character produced by lowercasing a decomposed,
mark-stripped character has a trivial decomposition; letters and numbers
are not combining marks; and lowercasing is character-wise idempotent. -/
theorem normalizeText_idempotent (U : UnicodeModel)
    (h1 : ∀ e c d, c ∈ U.nfd e → isCombiningMark c = false →
      d ∈ U.lower c → U.nfd d = [d])
    (h2 : ∀ c, U.isLetterOrNumber c = true → isCombiningMark c = false)
    (h3 : ∀ c d, d ∈ U.lower c → U.lower d = [d]) :
    (∀ s : List Char, normalizeText U (normalizeText U s) = normalizeText U s)
      ∧ normalizeText U [] = [] := by
  constructor
  · intro s
    have hmem := normalizeText_mem U h1 h2 h3 s
    have step1 : (normalizeText U s).flatMap U.nfd = normalizeText U s :=
      flatMap_eq_self (fun a ha => (hmem a ha).2.1)
    have step2 : (normalizeText U s).filter (fun c => !isCombiningMark c) =
        normalizeText U s :=
      List.filter_eq_self.mpr (fun a ha => by simp [(hmem a ha).2.2.2])
    have step3 : (normalizeText U s).flatMap U.lower = normalizeText U s :=
      flatMap_eq_self (fun a ha => (hmem a ha).2.2.1)
    have step4 : (normalizeText U s).filter U.isLetterOrNumber =
        normalizeText U s :=
      List.filter_eq_self.mpr (fun a ha => (hmem a ha).1)
    show ((((normalizeText U s).flatMap U.nfd).filter
        (fun c => !isCombiningMark c)).flatMap U.lower).filter
          U.isLetterOrNumber = normalizeText U s
    rw [step1, step2, step3, step4]
  · rfl

/-- C7 witness: the theorem applied to the concrete model and evaluated
on a concrete string. -/
theorem normalizeText_idempotent_witness :
    normalizeText plainUnicode (normalizeText plainUnicode "Cafe Bar".data) =
      normalizeText plainUnicode "Cafe Bar".data ∧
    normalizeText plainUnicode [] = [] := by
  have h := normalizeText_idempotent plainUnicode
    (by intro e c d hc _hm hd
        simp only [plainUnicode, List.mem_singleton] at hd
        subst hd
        rfl)
    (by intro c hc
        simp only [plainUnicode, decide_eq_true_eq] at hc
        simp [isCombiningMark]
        omega)
    (by intro c d hd
        simp only [plainUnicode, List.mem_singleton] at hd
        subst hd
        rfl)
  exact ⟨h.1 ("Cafe Bar".data), h.2⟩

/-- C10: the fallback clause of cursor-to-word resolution never changes
the result.  The hypothesis records the shape of every token the
tokenizer produces: the end offset is the start offset plus the word
length, hence at least the start offset, so a cursor equal to a token
end already satisfies the primary inclusive containment test. -/
theorem locateCursorWord_fallback_redundant (tokens : List Token) (c : Nat)
    (h : ∀ w ∈ tokens, w.endPos = w.start + w.word.length) :
    locateCursorWord tokens c = locateCursorWordPrimary tokens c := by
  unfold locateCursorWord locateCursorWordPrimary
  cases hp : tokens.findIdx? (fun w => decide (w.start ≤ c ∧ c ≤ w.endPos)) with
  | some i => rfl
  | none =>
      simp only
      rw [List.findIdx?_eq_none_iff] at hp ⊢
      intro w hw
      have hnot := hp w hw
      have hshape := h w hw
      simp only [decide_eq_false_iff_not, not_and, not_le] at hnot ⊢
      intro hceq
      have hstart : w.start ≤ c := by omega
      have := hnot hstart
      omega

/-- C10 witness: a concrete token list where the primary search fails. -/
theorem locateCursorWord_fallback_redundant_witness :
    locateCursorWord [⟨"ab".data, 0, 2⟩] 5 =
      locateCursorWordPrimary [⟨"ab".data, 0, 2⟩] 5 :=
  locateCursorWord_fallback_redundant [⟨"ab".data, 0, 2⟩] 5 (by decide)

/-- C4: the two sentence parses differ — the immediate-link path does not
trim trailing whitespace.  On the line `"ab "` with the cursor at offset
1, the suggestion path yields the trimmed sentence `"ab"` while the
quick-link path yields `"ab "`, although the source comments on
`runQuickLink` call its parsing the same as the suggest path. -/
theorem scanSentence_trailing_trim_divergence :
    scanSentenceSuggest "ab ".data 1 = ("ab".data, 0) ∧
    scanSentenceQuick "ab ".data 1 = ("ab ".data, 0) ∧
    ("ab".data : List Char) ≠ "ab ".data := by
  refine ⟨?_, ?_, ?_⟩ <;> decide

/-- C9 counterexample: change events for the two distinct documents `a`
and `b` inside one coalescing window (no timer fire between them) lead to
a single re-index of `b` only; `a` is never re-indexed, because the later
event cancelled the shared timer. -/
theorem debounce_counterexample :
    (debounceRun none [DebounceEvent.change "a".data,
        DebounceEvent.change "b".data, DebounceEvent.fire]).2 = ["b".data] ∧
    "a".data ∉ (debounceRun none [DebounceEvent.change "a".data,
        DebounceEvent.change "b".data, DebounceEvent.fire]).2 := by
  refine ⟨rfl, ?_⟩
  decide

/-- C9 amended: the scheduler holds one timer shared by every document; a
change event cancels whatever re-index is pending, whichever document
scheduled it, and schedules its own document; so of two distinct
documents changed inside one window only the later is re-indexed. -/
theorem debounce_shared_timer (s : Option (List Char)) (d₁ d₂ : List Char)
    (h : d₁ ≠ d₂) :
    (debounceStep s (DebounceEvent.change d₂)).1 = some d₂ ∧
    (debounceStep s (DebounceEvent.change d₂)).2 = [] ∧
    (debounceRun s [DebounceEvent.change d₁, DebounceEvent.change d₂,
        DebounceEvent.fire]).2 = [d₂] ∧
    d₁ ∉ (debounceRun s [DebounceEvent.change d₁, DebounceEvent.change d₂,
        DebounceEvent.fire]).2 := by
  cases s <;> refine ⟨rfl, rfl, rfl, ?_⟩ <;>
    simpa [debounceRun, debounceStep] using h

/-- C9 witness: the amended theorem applied at concrete documents and a
nonempty starting state. -/
theorem debounce_shared_timer_witness :
    (debounceRun (some "c".data) [DebounceEvent.change "a".data,
        DebounceEvent.change "b".data, DebounceEvent.fire]).2 = ["b".data] ∧
    "a".data ∉ (debounceRun (some "c".data) [DebounceEvent.change "a".data,
        DebounceEvent.change "b".data, DebounceEvent.fire]).2 :=
  ⟨(debounce_shared_timer (some "c".data) "a".data "b".data (by decide)).2.2.1,
   (debounce_shared_timer (some "c".data) "a".data "b".data (by decide)).2.2.2⟩

/-- A concrete tag entry as `indexFile` builds one:
target is the cleaned tag, displayText is the hash-prefixed tag. -/
def tagEntry : IndexEntry :=
  { type := IndexEntryType.tag, notePath := "t".data, noteTitle := "T".data,
    target := "travel".data, displayText := "#travel".data, score := none }

/-- C8 counterexample: for the matched phrase `travel`, both link paths
produce `[[travel|travel]]`, whose shown text is the phrase, not the
hash-prefixed display form `#travel` carried by the entry; a link showing
the display form would read `[[travel|#travel]]`. -/
theorem resolveTag_counterexample :
    resolveLinkSelect tagEntry "travel".data = "[[travel|travel]]".data ∧
    resolveLinkQuick tagEntry "travel".data = "[[travel|travel]]".data ∧
    tagEntry.displayText = "#travel".data ∧
    resolveLinkSelect tagEntry "travel".data ≠ "[[travel|#travel]]".data := by
  refine ⟨?_, ?_, ?_, ?_⟩ <;> decide

/-- C8 amended: for a Tag entry both resolution paths build the link from
the tag name (the target) as destination and the matched display phrase
as the shown text — the same shape as a Title link; the hash-prefixed
displayText of the entry is not used in the link. -/
theorem resolveTag_amended (item : IndexEntry) (q : List Char)
    (h : item.type = IndexEntryType.tag) :
    resolveLinkSelect item q =
      "[[".data ++ item.target ++ "|".data ++ q ++ "]]".data ∧
    resolveLinkQuick item q =
      "[[".data ++ item.target ++ "|".data ++ q ++ "]]".data := by
  unfold resolveLinkSelect resolveLinkQuick
  rw [h]
  exact ⟨rfl, rfl⟩

/-- C8 witness: the amended theorem at the concrete tag entry. -/
theorem resolveTag_amended_witness :
    resolveLinkSelect tagEntry "x".data =
      "[[".data ++ tagEntry.target ++ "|".data ++ "x".data ++ "]]".data ∧
    resolveLinkQuick tagEntry "x".data =
      "[[".data ++ tagEntry.target ++ "|".data ++ "x".data ++ "]]".data :=
  resolveTag_amended tagEntry "x".data rfl

/-- A concrete Title entry for the document at path `p` titled `Paris`. -/
def parisEntry : IndexEntry :=
  { type := IndexEntryType.title, notePath := "p".data,
    noteTitle := "Paris".data, target := "Paris".data,
    displayText := "Paris".data, score := none }

/-- C3 counterexample: rename the document at path `p` to path `r` with
new basename `Rome`.  The Title entry in the bucket of the old
normalized-title key gets the new sourceTitle, but its target and
displayText still read `Paris`, not the new title. -/
theorem renameInIndex_counterexample :
    (lookupBucket (renameInIndex [("paris".data, [parisEntry])] "p".data
        "r".data "Rome".data) "paris".data).map
      (fun e => (e.type, e.noteTitle, e.target, e.displayText)) =
      [(IndexEntryType.title, "Rome".data, "Paris".data, "Paris".data)] ∧
    ("Paris".data : List Char) ≠ "Rome".data := by
  refine ⟨?_, ?_⟩ <;> decide

/-- Looking a key up in an index whose buckets were all rewritten by a
value map that fixes the empty bucket commutes with the rewrite. -/
theorem lookupBucket_map_buckets (idx : Index)
    (f : List IndexEntry → List IndexEntry) (hf : f [] = []) (k : List Char) :
    lookupBucket (idx.map (fun kb => (kb.1, f kb.2))) k =
      f (lookupBucket idx k) := by
  induction idx with
  | nil => simp [lookupBucket, hf]
  | cons kb rest ih =>
      by_cases h : kb.1 = k
      · simp [lookupBucket, List.find?_cons, h]
      · have hd : (decide (kb.1 = k)) = false := by simp [h]
        simp only [List.map_cons, lookupBucket, List.find?_cons, hd] at ih ⊢
        exact ih

/-- C3 amended: after a rename, every bucket key is unchanged, every
bucket is pointwise rewritten by the per-entry update, and the per-entry
update moves a matching entry to the new path and new sourceTitle while
leaving its target and displayText untouched; non-matching entries are
untouched entirely. -/
theorem renameInIndex_amended (idx : Index)
    (oldPath newPath newTitle : List Char) :
    ((renameInIndex idx oldPath newPath newTitle).map Prod.fst =
      idx.map Prod.fst) ∧
    (∀ k, lookupBucket (renameInIndex idx oldPath newPath newTitle) k =
      (lookupBucket idx k).map (renameEntry oldPath newPath newTitle)) ∧
    (∀ e : IndexEntry,
      (renameEntry oldPath newPath newTitle e).target = e.target ∧
      (renameEntry oldPath newPath newTitle e).displayText = e.displayText ∧
      (e.notePath = oldPath →
        (renameEntry oldPath newPath newTitle e).notePath = newPath ∧
        (renameEntry oldPath newPath newTitle e).noteTitle = newTitle) ∧
      (e.notePath ≠ oldPath → renameEntry oldPath newPath newTitle e = e)) := by
  refine ⟨?_, ?_, ?_⟩
  · simp [renameInIndex]
  · intro k
    exact lookupBucket_map_buckets idx _ rfl k
  · intro e
    unfold renameEntry
    by_cases h : e.notePath = oldPath
    · simp [h]
    · simp [h]

/-- C3 witness: the amended theorem instantiated at the concrete rename
of the Paris document. -/
theorem renameInIndex_amended_witness :
    lookupBucket (renameInIndex [("paris".data, [parisEntry])] "p".data
        "r".data "Rome".data) "paris".data =
      (lookupBucket [("paris".data, [parisEntry])] "paris".data).map
        (renameEntry "p".data "r".data "Rome".data) ∧
    (renameEntry "p".data "r".data "Rome".data parisEntry).notePath =
      "r".data ∧
    (renameEntry "p".data "r".data "Rome".data parisEntry).noteTitle =
      "Rome".data ∧
    (renameEntry "p".data "r".data "Rome".data parisEntry).target =
      parisEntry.target :=
  ⟨(renameInIndex_amended [("paris".data, [parisEntry])] "p".data "r".data
      "Rome".data).2.1 ("paris".data),
   ((renameInIndex_amended [("paris".data, [parisEntry])] "p".data "r".data
      "Rome".data).2.2 parisEntry).2.2.1 (by decide) |>.1,
   ((renameInIndex_amended [("paris".data, [parisEntry])] "p".data "r".data
      "Rome".data).2.2 parisEntry).2.2.1 (by decide) |>.2,
   ((renameInIndex_amended [("paris".data, [parisEntry])] "p".data "r".data
      "Rome".data).2.2 parisEntry).1⟩

/-- Writing back the bucket the lookup found, unchanged, leaves the whole
index unchanged (JS `map.set(k, map.get(k))`). -/
theorem setBucket_eq_of_find? {idx : Index} {k : List Char}
    {kb₀ : List Char × List IndexEntry}
    (h : List.find? (fun kb => decide (kb.1 = k)) idx = some kb₀) :
    setBucket idx k kb₀.2 = idx := by
  induction idx with
  | nil => simp at h
  | cons kb rest ih =>
      by_cases hk : kb.1 = k
      · rw [List.find?_cons_of_pos _ (by simp [hk])] at h
        cases h
        unfold setBucket
        rw [if_pos hk, ← hk]
      · rw [List.find?_cons_of_neg _ (by simp [hk])] at h
        unfold setBucket
        rw [if_neg hk, ih h]

/-- Every binding of the updated index is an old binding or the new one. -/
theorem mem_setBucket {idx : Index} {k : List Char} {v : List IndexEntry}
    {kb : List Char × List IndexEntry} (h : kb ∈ setBucket idx k v) :
    kb ∈ idx ∨ kb = (k, v) := by
  induction idx with
  | nil =>
      simp only [setBucket, List.mem_singleton] at h
      exact Or.inr h
  | cons kb₁ rest ih =>
      unfold setBucket at h
      by_cases hk : kb₁.1 = k
      · rw [if_pos hk] at h
        rcases List.mem_cons.mp h with h1 | h1
        · exact Or.inr h1
        · exact Or.inl (List.mem_cons_of_mem _ h1)
      · rw [if_neg hk] at h
        rcases List.mem_cons.mp h with h1 | h1
        · exact Or.inl (by simp [h1])
        · rcases ih h1 with h2 | h2
          · exact Or.inl (List.mem_cons_of_mem _ h2)
          · exact Or.inr h2

/-- A bucket the lookup returns is duplicate-free when the index is. -/
theorem lookupBucket_pairwise {idx : Index} (hidx : BucketsDedup idx)
    (k : List Char) :
    (lookupBucket idx k).Pairwise (fun a b => tripleOf a ≠ tripleOf b) := by
  unfold lookupBucket
  cases hf : List.find? (fun kb => decide (kb.1 = k)) idx with
  | none => exact List.Pairwise.nil
  | some kb => exact hidx kb (List.mem_of_find?_eq_some hf)

/-- One insertion preserves the per-bucket uniqueness invariant. -/
theorem addToIndex_preserves (U : UnicodeModel) (idx : Index)
    (key : List Char) (entry : IndexEntry) (h : BucketsDedup idx) :
    BucketsDedup (addToIndex U idx key entry) := by
  intro kb hkb
  simp only [addToIndex] at hkb
  by_cases hany : (lookupBucket idx (normalizeText U key)).any
      (fun e => sameKey e entry) = true
  · rw [if_pos hany] at hkb
    rcases mem_setBucket hkb with h1 | h1
    · exact h kb h1
    · rw [h1]
      exact lookupBucket_pairwise h (normalizeText U key)
  · have hfalse : (lookupBucket idx (normalizeText U key)).any
        (fun e => sameKey e entry) = false := by
      revert hany
      cases (lookupBucket idx (normalizeText U key)).any
        (fun e => sameKey e entry) <;> simp
    rw [if_neg (by simp [hfalse])] at hkb
    rcases mem_setBucket hkb with h1 | h1
    · exact h kb h1
    · rw [h1]
      show ((lookupBucket idx (normalizeText U key)) ++ [entry]).Pairwise _
      rw [List.pairwise_append]
      refine ⟨lookupBucket_pairwise h (normalizeText U key),
        List.pairwise_singleton _ _, ?_⟩
      intro a ha b hbmem
      rw [List.mem_singleton] at hbmem
      rw [hbmem]
      have hb := List.any_eq_false.mp hfalse a ha
      exact sameKey_false_iff.mp (by revert hb; cases sameKey a entry <;> simp)

/-- The invariant holds after any insertion sequence built by folding. -/
theorem addToIndex_foldl (U : UnicodeModel)
    (ops : List (List Char × IndexEntry)) :
    ∀ idx, BucketsDedup idx →
      BucketsDedup (ops.foldl (fun i op => addToIndex U i op.1 op.2) idx) := by
  induction ops with
  | nil => intro idx h; simpa using h
  | cons op rest ih =>
      intro idx h
      simp only [List.foldl_cons]
      exact ih _ (addToIndex_preserves U idx op.1 op.2 h)

/-- C5: inserting an entry whose `(kind, sourceId, target)` triple already
occurs in the target bucket leaves the index unchanged; one insertion
preserves the per-bucket uniqueness invariant; and the invariant holds
after any sequence of insertions starting from the empty index. -/
theorem addToIndex_dedup (U : UnicodeModel) (idx : Index) (key : List Char)
    (entry : IndexEntry) (ops : List (List Char × IndexEntry)) :
    ((∃ e ∈ lookupBucket idx (normalizeText U key),
        tripleOf e = tripleOf entry) → addToIndex U idx key entry = idx) ∧
    (BucketsDedup idx → BucketsDedup (addToIndex U idx key entry)) ∧
    BucketsDedup (ops.foldl (fun i op => addToIndex U i op.1 op.2) []) := by
  refine ⟨?_, addToIndex_preserves U idx key entry, ?_⟩
  · intro hmem
    obtain ⟨e, he, htrip⟩ := hmem
    cases hf : List.find? (fun kb => decide (kb.1 = normalizeText U key)) idx
      with
    | none =>
        rw [lookupBucket, hf] at he
        cases he
    | some kb₀ =>
        have hlook : lookupBucket idx (normalizeText U key) = kb₀.2 := by
          rw [lookupBucket, hf]
        have hany : (lookupBucket idx (normalizeText U key)).any
            (fun e => sameKey e entry) = true := by
          rw [List.any_eq_true]
          exact ⟨e, he, sameKey_iff.mpr htrip⟩
        simp only [addToIndex]
        rw [if_pos hany, hlook]
        exact setBucket_eq_of_find? hf
  · apply addToIndex_foldl
    intro kb hkb
    cases hkb

/-- A concrete heading entry for the insertion witness. -/
def kEntry : IndexEntry :=
  { type := IndexEntryType.heading, notePath := "n".data,
    noteTitle := "N".data, target := "K".data,
    displayText := "N K".data, score := none }

/-- C5 witness: a duplicate insertion at a concrete index is a no-op, and
the insertion preserves the invariant there. -/
theorem addToIndex_dedup_witness :
    addToIndex plainUnicode [("k".data, [kEntry])] "k".data kEntry =
      [("k".data, [kEntry])] ∧
    BucketsDedup (addToIndex plainUnicode [("k".data, [kEntry])] "k".data
      kEntry) := by
  refine ⟨(addToIndex_dedup plainUnicode [("k".data, [kEntry])] "k".data
      kEntry []).1 ?_,
    (addToIndex_dedup plainUnicode [("k".data, [kEntry])] "k".data
      kEntry []).2.1 ?_⟩
  · exact ⟨kEntry, by decide, rfl⟩
  · intro kb hkb
    rcases List.mem_singleton.mp hkb with rfl
    exact List.pairwise_singleton _ _

/-- A key absent from the key list looks up to the empty bucket. -/
theorem lookupBucket_eq_nil_of_not_mem {idx : Index} {k : List Char}
    (h : k ∉ idx.map Prod.fst) : lookupBucket idx k = [] := by
  unfold lookupBucket
  cases hf : List.find? (fun kb => decide (kb.1 = k)) idx with
  | none => rfl
  | some kb =>
      exfalso
      apply h
      have hmem := List.mem_of_find?_eq_some hf
      have hp := List.find?_some hf
      simp only [decide_eq_true_eq] at hp
      exact hp ▸ List.mem_map_of_mem Prod.fst hmem

/-- Head-key lookup on a cons index. -/
theorem lookupBucket_cons_self {kb : List Char × List IndexEntry}
    {rest : Index} {k : List Char} (h : kb.1 = k) :
    lookupBucket (kb :: rest) k = kb.2 := by
  unfold lookupBucket
  rw [List.find?_cons_of_pos _ (by simp [h])]

/-- A lookup skips a binding of a different key. -/
theorem lookupBucket_cons_ne {kb : List Char × List IndexEntry}
    {rest : Index} {k : List Char} (h : kb.1 ≠ k) :
    lookupBucket (kb :: rest) k = lookupBucket rest k := by
  unfold lookupBucket
  rw [List.find?_cons_of_neg _ (by simp [h])]

/-- Head-key lookup when the head binding is a literal pair. -/
theorem lookupBucket_pair_self {k₁ : List Char} {v : List IndexEntry}
    {rest : Index} {k : List Char} (h : k₁ = k) :
    lookupBucket ((k₁, v) :: rest) k = v := by
  unfold lookupBucket
  rw [List.find?_cons_of_pos _ (by simp [h])]

/-- Skipping a literal-pair head binding of a different key. -/
theorem lookupBucket_pair_ne {k₁ : List Char} {v : List IndexEntry}
    {rest : Index} {k : List Char} (h : k₁ ≠ k) :
    lookupBucket ((k₁, v) :: rest) k = lookupBucket rest k := by
  unfold lookupBucket
  rw [List.find?_cons_of_neg _ (by simp [h])]

/-- A removal drops a head binding whose bucket filters to empty. -/
theorem deleteFromIndex_cons_nil {kb : List Char × List IndexEntry}
    {rest : Index} {path : List Char}
    (hf : kb.2.filter (fun e => decide (e.notePath ≠ path)) = []) :
    deleteFromIndex (kb :: rest) path = deleteFromIndex rest path := by
  unfold deleteFromIndex
  rw [List.filterMap_cons]
  split
  · rfl
  · next b heq =>
      have h2 : (if kb.2.filter (fun e => decide (e.notePath ≠ path)) = []
          then none
          else some (kb.1, kb.2.filter (fun e => decide (e.notePath ≠ path))))
          = some b := heq
      rw [if_pos hf] at h2
      cases h2

/-- A removal keeps a head binding whose bucket filters to nonempty. -/
theorem deleteFromIndex_cons_keep {kb : List Char × List IndexEntry}
    {rest : Index} {path : List Char}
    (hf : ¬kb.2.filter (fun e => decide (e.notePath ≠ path)) = []) :
    deleteFromIndex (kb :: rest) path =
      (kb.1, kb.2.filter (fun e => decide (e.notePath ≠ path))) ::
        deleteFromIndex rest path := by
  unfold deleteFromIndex
  rw [List.filterMap_cons]
  split
  · next heq =>
      have h2 : (if kb.2.filter (fun e => decide (e.notePath ≠ path)) = []
          then none
          else some (kb.1, kb.2.filter (fun e => decide (e.notePath ≠ path))))
          = none := heq
      rw [if_neg hf] at h2
      cases h2
  · next b heq =>
      have h2 : (if kb.2.filter (fun e => decide (e.notePath ≠ path)) = []
          then none
          else some (kb.1, kb.2.filter (fun e => decide (e.notePath ≠ path))))
          = some b := heq
      rw [if_neg hf] at h2
      cases h2
      rfl

/-- The keys surviving a removal were keys of the original index. -/
theorem keys_deleteFromIndex_subset {idx : Index} {path k : List Char}
    (h : k ∈ (deleteFromIndex idx path).map Prod.fst) :
    k ∈ idx.map Prod.fst := by
  rcases List.mem_map.mp h with ⟨kb, hkb, hfst⟩
  unfold deleteFromIndex at hkb
  rcases List.mem_filterMap.mp hkb with ⟨ab, hab, hsome⟩
  have hsome' : (if ab.2.filter (fun e => decide (e.notePath ≠ path)) = []
      then none
      else some (ab.1, ab.2.filter (fun e => decide (e.notePath ≠ path)))) =
      some kb := hsome
  by_cases hf : ab.2.filter (fun e => decide (e.notePath ≠ path)) = []
  · rw [if_pos hf] at hsome'
    cases hsome'
  · rw [if_neg hf] at hsome'
    cases hsome'
    have hmem2 : ab.1 ∈ idx.map Prod.fst := List.mem_map_of_mem Prod.fst hab
    have hk : ab.1 = k := hfst
    rw [← hk]
    exact hmem2

/-- Every binding surviving a removal has a nonempty bucket. -/
theorem deleteFromIndex_no_empty (idx : Index) (path : List Char) :
    ∀ kb ∈ deleteFromIndex idx path, kb.2 ≠ [] := by
  intro kb hkb
  unfold deleteFromIndex at hkb
  rcases List.mem_filterMap.mp hkb with ⟨ab, _hab, hsome⟩
  have hsome' : (if ab.2.filter (fun e => decide (e.notePath ≠ path)) = []
      then none
      else some (ab.1, ab.2.filter (fun e => decide (e.notePath ≠ path)))) =
      some kb := hsome
  by_cases hf : ab.2.filter (fun e => decide (e.notePath ≠ path)) = []
  · rw [if_pos hf] at hsome'
    cases hsome'
  · rw [if_neg hf] at hsome'
    cases hsome'
    exact hf

/-- Under key-uniqueness, a removal filters every lookup pointwise. -/
theorem deleteFromIndex_lookup (path : List Char) :
    ∀ idx : Index, (idx.map Prod.fst).Nodup → ∀ k,
      lookupBucket (deleteFromIndex idx path) k =
        (lookupBucket idx k).filter (fun e => decide (e.notePath ≠ path)) := by
  intro idx
  induction idx with
  | nil => intro _ k; simp [deleteFromIndex, lookupBucket]
  | cons kb rest ih =>
      intro hkeys k
      have hnd : kb.1 ∉ rest.map Prod.fst ∧ (rest.map Prod.fst).Nodup := by
        rw [List.map_cons, List.nodup_cons] at hkeys
        exact hkeys
      by_cases hk : kb.1 = k
      · subst hk
        by_cases hf : kb.2.filter (fun e => decide (e.notePath ≠ path)) = []
        · rw [deleteFromIndex_cons_nil hf,
            lookupBucket_eq_nil_of_not_mem
              (fun hm => hnd.1 (keys_deleteFromIndex_subset hm)),
            lookupBucket_cons_self rfl, hf]
        · rw [deleteFromIndex_cons_keep hf, lookupBucket_pair_self rfl,
            lookupBucket_cons_self rfl]
      · by_cases hf : kb.2.filter (fun e => decide (e.notePath ≠ path)) = []
        · rw [deleteFromIndex_cons_nil hf, lookupBucket_cons_ne hk,
            ih hnd.2 k]
        · rw [deleteFromIndex_cons_keep hf, lookupBucket_pair_ne hk,
            lookupBucket_cons_ne hk, ih hnd.2 k]

/-- C6: a removal deletes exactly the entries of the removed document,
deletes every key whose bucket becomes empty, and leaves no key mapping
to an empty bucket; a key contributed only by the removed document is
absent afterwards. -/
theorem deleteFromIndex_spec (idx : Index) (path : List Char)
    (hkeys : (idx.map Prod.fst).Nodup) :
    (∀ k, lookupBucket (deleteFromIndex idx path) k =
      (lookupBucket idx k).filter (fun e => decide (e.notePath ≠ path))) ∧
    (∀ kb ∈ deleteFromIndex idx path, kb.2 ≠ []) ∧
    (∀ k, (∀ e ∈ lookupBucket idx k, e.notePath = path) →
      k ∉ (deleteFromIndex idx path).map Prod.fst) := by
  refine ⟨deleteFromIndex_lookup path idx hkeys,
    deleteFromIndex_no_empty idx path, ?_⟩
  intro k hall hmem
  have h1 := deleteFromIndex_lookup path idx hkeys k
  have hfilter : (lookupBucket idx k).filter
      (fun e => decide (e.notePath ≠ path)) = [] :=
    List.filter_eq_nil_iff.mpr (fun a ha => by simp [hall a ha])
  rcases List.mem_map.mp hmem with ⟨kb, hkb, hfst⟩
  have hne : lookupBucket (deleteFromIndex idx path) k ≠ [] := by
    unfold lookupBucket
    cases hf : List.find? (fun kb => decide (kb.1 = k))
        (deleteFromIndex idx path) with
    | none =>
        exfalso
        rw [List.find?_eq_none] at hf
        exact hf kb hkb (by simp [hfst])
    | some kb' =>
        exact deleteFromIndex_no_empty idx path kb'
          (List.mem_of_find?_eq_some hf)
  exact hne (h1.trans hfilter)

/-- Concrete entries of two distinct documents for the removal witness. -/
def aEntry : IndexEntry :=
  { type := IndexEntryType.title, notePath := "pa".data,
    noteTitle := "A".data, target := "A".data,
    displayText := "A".data, score := none }

def bEntry : IndexEntry :=
  { type := IndexEntryType.title, notePath := "pb".data,
    noteTitle := "B".data, target := "B".data,
    displayText := "B".data, score := none }

/-- C6 witness: removing document `pa` from a concrete two-key index
erases the key only it contributed and filters the other bucket. -/
theorem deleteFromIndex_spec_witness :
    "a".data ∉ (deleteFromIndex [("a".data, [aEntry]), ("b".data, [bEntry])]
      "pa".data).map Prod.fst ∧
    lookupBucket (deleteFromIndex [("a".data, [aEntry]),
        ("b".data, [bEntry])] "pa".data) "b".data =
      (lookupBucket [("a".data, [aEntry]), ("b".data, [bEntry])]
        "b".data).filter (fun e => decide (e.notePath ≠ "pa".data)) :=
  ⟨(deleteFromIndex_spec [("a".data, [aEntry]), ("b".data, [bEntry])]
      "pa".data (by decide)).2.2 "a".data (by decide),
   (deleteFromIndex_spec [("a".data, [aEntry]), ("b".data, [bEntry])]
      "pa".data (by decide)).1 "b".data⟩

/-- Unpacking the skip-or-yield body of the candidate loop. -/
theorem enumerateInner_eq {c span o : Nat} {x : Nat × Nat}
    (hg : (if c < o ∨ o + span - 1 < c then none
        else some (o, o + span - 1)) = some x) :
    x = (o, o + span - 1) ∧ ¬(c < o ∨ o + span - 1 < c) := by
  by_cases hcond : c < o ∨ o + span - 1 < c
  · rw [if_pos hcond] at hg
    cases hg
  · rw [if_neg hcond] at hg
    cases hg
    exact ⟨rfl, hcond⟩

/-- The produced spans are exactly the cursor-containing in-range spans. -/
theorem enumeratePhrases_mem (n c s e : Nat) :
    (s, e) ∈ enumeratePhrases n c ↔ s ≤ c ∧ c ≤ e ∧ e < n := by
  unfold enumeratePhrases
  simp only [List.mem_flatMap, List.mem_map, List.mem_range,
    List.mem_filterMap]
  constructor
  · rintro ⟨span, ⟨i, hi, hspan⟩, o, ho, hsome⟩
    obtain ⟨hx, hcond⟩ := enumerateInner_eq hsome
    have hs : s = o := congrArg Prod.fst hx
    have he : e = o + span - 1 := congrArg Prod.snd hx
    push_neg at hcond
    omega
  · rintro ⟨hsc, hce, hen⟩
    refine ⟨e - s + 1, ⟨n - (e - s + 1), by omega, by omega⟩, s,
      by omega, ?_⟩
    rw [if_neg (by omega)]
    have harith : s + (e - s + 1) - 1 = e := by omega
    rw [harith]

/-- The candidate list is sorted by strictly decreasing span length, and
by increasing start index among equal lengths. -/
theorem enumeratePhrases_sorted (n c : Nat) :
    (enumeratePhrases n c).Pairwise (fun p q =>
      spanLen q < spanLen p ∨ (spanLen q = spanLen p ∧ p.1 < q.1)) := by
  unfold enumeratePhrases
  rw [List.pairwise_flatMap]
  constructor
  · intro span hspan
    rcases List.mem_map.mp hspan with ⟨i, hi, hspanEq⟩
    rw [List.mem_range] at hi
    have hge1 : 1 ≤ span := by omega
    rw [List.pairwise_filterMap]
    refine (List.pairwise_lt_range _).imp ?_
    intro o₁ o₂ hlt x hx y hy
    have hgx : (if c < o₁ ∨ o₁ + span - 1 < c then none
        else some (o₁, o₁ + span - 1)) = some x := hx
    have hgy : (if c < o₂ ∨ o₂ + span - 1 < c then none
        else some (o₂, o₂ + span - 1)) = some y := hy
    obtain ⟨hxeq, _⟩ := enumerateInner_eq hgx
    obtain ⟨hyeq, _⟩ := enumerateInner_eq hgy
    right
    rw [hxeq, hyeq]
    unfold spanLen
    constructor
    · simp only
      omega
    · exact hlt
  · rw [List.pairwise_map, List.pairwise_iff_getElem]
    intro i j hi hj hij
    simp only [List.length_range] at hi hj
    simp only [List.getElem_range]
    intro x hx y hy
    rcases List.mem_filterMap.mp hx with ⟨o₁, ho₁, hgx'⟩
    rcases List.mem_filterMap.mp hy with ⟨o₂, ho₂, hgy'⟩
    have hgx : (if c < o₁ ∨ o₁ + (n - i) - 1 < c then none
        else some (o₁, o₁ + (n - i) - 1)) = some x := hgx'
    have hgy : (if c < o₂ ∨ o₂ + (n - j) - 1 < c then none
        else some (o₂, o₂ + (n - j) - 1)) = some y := hgy'
    obtain ⟨hxeq, _⟩ := enumerateInner_eq hgx
    obtain ⟨hyeq, _⟩ := enumerateInner_eq hgy
    left
    rw [hxeq, hyeq]
    unfold spanLen
    simp only
    omega

/-- C2: the candidate loop produces exactly the contiguous spans
containing the cursor word, ordered by strictly descending span length
and, among equal lengths, by ascending start index; for three tokens with
the cursor on the middle one the first candidate is the full span. -/
theorem enumeratePhrases_spec (n c : Nat) :
    (∀ s e : Nat, (s, e) ∈ enumeratePhrases n c ↔ s ≤ c ∧ c ≤ e ∧ e < n) ∧
    (enumeratePhrases n c).Pairwise (fun p q =>
      spanLen q < spanLen p ∨ (spanLen q = spanLen p ∧ p.1 < q.1)) ∧
    (enumeratePhrases 3 1).head? = some (0, 2) :=
  ⟨fun s e => enumeratePhrases_mem n c s e, enumeratePhrases_sorted n c,
    by decide⟩

/-- The deduplicated list is a sublist of its input. -/
theorem keepFirstByKey_sublist :
    ∀ (l seen : List IndexEntry), List.Sublist (keepFirstByKey seen l) l := by
  intro l
  induction l with
  | nil => intro seen; exact List.nil_sublist _
  | cons m rest ih =>
      intro seen
      simp only [keepFirstByKey]
      by_cases h : seen.any (fun e => sameKey e m) = true
      · rw [if_pos h]
        exact (ih _).cons m
      · rw [if_neg h]
        exact (ih _).cons₂ m

/-- Splitting the dedup scan at a list boundary: the elements already
processed join the seen prefix. -/
theorem keepFirstByKey_append :
    ∀ (xs seen ys : List IndexEntry),
      keepFirstByKey seen (xs ++ ys) =
        keepFirstByKey seen xs ++ keepFirstByKey (seen ++ xs) ys := by
  intro xs
  induction xs with
  | nil => intro seen ys; simp [keepFirstByKey]
  | cons m xs ih =>
      intro seen ys
      simp only [List.cons_append, keepFirstByKey, List.append_eq]
      by_cases h : seen.any (fun e => sameKey e m) = true
      · rw [if_pos h, if_pos h, ih, List.append_assoc]
        rfl
      · rw [if_neg h, if_neg h, ih, List.append_assoc]
        rfl

/-- Nothing the dedup scan emits shares a triple with a seen element. -/
theorem keepFirstByKey_not_seen :
    ∀ (l seen : List IndexEntry), ∀ e ∈ keepFirstByKey seen l,
      ∀ s ∈ seen, sameKey s e = false := by
  intro l
  induction l with
  | nil =>
      intro seen e he
      simp [keepFirstByKey] at he
  | cons m rest ih =>
      intro seen e he s hs
      simp only [keepFirstByKey] at he
      by_cases h : seen.any (fun e => sameKey e m) = true
      · rw [if_pos h] at he
        exact ih (seen ++ [m]) e he s (List.mem_append_left _ hs)
      · rw [if_neg h] at he
        rcases List.mem_cons.mp he with rfl | he'
        · have hfalse : seen.any (fun x => sameKey x e) = false := by
            revert h
            cases seen.any (fun x => sameKey x e) <;> simp
          have hns := List.any_eq_false.mp hfalse s hs
          cases hsk : sameKey s e
          · rfl
          · exact absurd hsk hns
        · exact ih (seen ++ [m]) e he' s (List.mem_append_left _ hs)

/-- The dedup scan emits pairwise triple-distinct entries. -/
theorem keepFirstByKey_pairwise :
    ∀ (l seen : List IndexEntry),
      (keepFirstByKey seen l).Pairwise (fun a b => sameKey a b = false) := by
  intro l
  induction l with
  | nil => intro seen; simp [keepFirstByKey]
  | cons m rest ih =>
      intro seen
      simp only [keepFirstByKey]
      by_cases h : seen.any (fun e => sameKey e m) = true
      · rw [if_pos h]
        exact ih _
      · rw [if_neg h]
        refine List.Pairwise.cons ?_ (ih _)
        intro b hb
        exact keepFirstByKey_not_seen rest (seen ++ [m]) b hb m (by simp)

/-- The score copy does not change the uniqueness triple. -/
theorem tripleOf_withScore (s : ℚ) (e : IndexEntry) :
    tripleOf (withScore s e) = tripleOf e := rfl

/-- Soundness of the exact-match pass. -/
theorem prefixMatched_of_mem {idx : Index} {nq : List Char} {x : IndexEntry}
    (hx : x ∈ prefixPass idx nq) : prefixMatchedTriple idx nq x := by
  unfold prefixPass at hx
  rcases List.mem_flatMap.mp hx with ⟨kb, hkb, hxin⟩
  by_cases hcond : startsWithKey kb.1 nq = true
  · rw [if_pos hcond] at hxin
    rcases List.mem_map.mp hxin with ⟨y, hy, hxy⟩
    exact ⟨kb, hkb, hcond, y, hy, by rw [← hxy]; rfl⟩
  · rw [if_neg hcond] at hxin
    cases hxin

/-- Completeness of the exact-match pass over triples. -/
theorem mem_prefixPass_of_matched {idx : Index} {nq : List Char}
    {e : IndexEntry} (h : prefixMatchedTriple idx nq e) :
    ∃ x ∈ prefixPass idx nq, tripleOf x = tripleOf e := by
  obtain ⟨kb, hkb, hcond, y, hy, htrip⟩ := h
  refine ⟨withScore 0 y, ?_, htrip⟩
  unfold prefixPass
  apply List.mem_flatMap.mpr
  exact ⟨kb, hkb, by rw [if_pos hcond]; exact List.mem_map_of_mem _ hy⟩

/-- Soundness of the fuzzy pass. -/
theorem fuzzyMatched_of_mem {U : UnicodeModel} {idx : Index} {nq : List Char}
    {x : IndexEntry} (hx : x ∈ fuzzyPass U idx nq) :
    fuzzyMatchedTriple U idx nq x := by
  unfold fuzzyPass at hx
  rcases List.mem_flatMap.mp hx with ⟨kb, hkb, hxin⟩
  by_cases hcond : fuzzyMatch U nq kb.1 = true
  · rw [if_pos hcond] at hxin
    rcases List.mem_map.mp hxin with ⟨y, hy, hxy⟩
    exact ⟨kb, hkb, hcond, y, hy, by rw [← hxy]; rfl⟩
  · rw [if_neg hcond] at hxin
    cases hxin

/-- C1: the matcher output is deduplicated by the uniqueness triple, and
splits into a block of prefix-matched entries followed by a block of
entries matched only by the fuzzy pass — so every prefix-matched entry
precedes every fuzzy-only entry, and no two results share a triple. -/
theorem getSuggestions_prefix_first (U : UnicodeModel) (idx : Index)
    (query : List Char) :
    (getSuggestions U idx query).Pairwise
      (fun a b => tripleOf a ≠ tripleOf b) ∧
    ∃ l₁ l₂, getSuggestions U idx query = l₁ ++ l₂ ∧
      (∀ e ∈ l₁, prefixMatchedTriple idx (normalizeText U query) e) ∧
      (∀ e ∈ l₂, fuzzyMatchedTriple U idx (normalizeText U query) e ∧
        ¬prefixMatchedTriple idx (normalizeText U query) e) := by
  by_cases hq : normalizeText U query = []
  · have hgs : getSuggestions U idx query = [] := by
      unfold getSuggestions
      rw [if_pos hq]
    rw [hgs]
    refine ⟨List.Pairwise.nil, [], [], rfl, ?_, ?_⟩ <;>
      exact fun e he => absurd he (List.not_mem_nil e)
  · have hgs : getSuggestions U idx query =
        (keepFirstByKey [] (prefixPass idx (normalizeText U query) ++
          fuzzyPass U idx (normalizeText U query))).take 100 := by
      unfold getSuggestions
      rw [if_neg hq]
    have hsplit : keepFirstByKey []
        (prefixPass idx (normalizeText U query) ++
          fuzzyPass U idx (normalizeText U query)) =
        keepFirstByKey [] (prefixPass idx (normalizeText U query)) ++
          keepFirstByKey (prefixPass idx (normalizeText U query))
            (fuzzyPass U idx (normalizeText U query)) := by
      rw [keepFirstByKey_append, List.nil_append]
    constructor
    · rw [hgs]
      have hp : ((keepFirstByKey []
          (prefixPass idx (normalizeText U query) ++
            fuzzyPass U idx (normalizeText U query))).take 100).Pairwise
          (fun a b => sameKey a b = false) :=
        List.Pairwise.sublist (List.take_sublist _ _)
          (keepFirstByKey_pairwise _ [])
      exact hp.imp (fun h => sameKey_false_iff.mp h)
    · rw [hgs, hsplit, List.take_append_eq_append_take]
      refine ⟨_, _, rfl, ?_, ?_⟩
      · intro e he
        have he1 : e ∈ keepFirstByKey []
            (prefixPass idx (normalizeText U query)) :=
          (List.take_sublist _ _).subset he
        have he2 : e ∈ prefixPass idx (normalizeText U query) :=
          (keepFirstByKey_sublist _ []).subset he1
        exact prefixMatched_of_mem he2
      · intro e he
        have he1 : e ∈ keepFirstByKey
            (prefixPass idx (normalizeText U query))
            (fuzzyPass U idx (normalizeText U query)) :=
          (List.take_sublist _ _).subset he
        have he2 : e ∈ fuzzyPass U idx (normalizeText U query) :=
          (keepFirstByKey_sublist _ _).subset he1
        refine ⟨fuzzyMatched_of_mem he2, ?_⟩
        intro hpm
        obtain ⟨x, hxE, hxtrip⟩ := mem_prefixPass_of_matched hpm
        have hns := keepFirstByKey_not_seen _ _ e he1 x hxE
        exact (sameKey_false_iff.mp hns) hxtrip
